import Mathlib

/-!
Verification of the keyword-bot repository (`advanced-keyword-bot.py`).

The Python source is shallowly embedded below:
* dictionaries (`dict` / `defaultdict(list)`) become insertion-ordered
  association lists, since Python dicts preserve insertion order and that
  order is observable through iteration (`keywords.items()`, leaderboard
  iteration);
* `datetime` values become integers (seconds); `timedelta(days=1)` is
  86400, `timedelta(weeks=1)` is 604800, `timedelta(days=30)` is 2592000;
  `isoformat`/`fromisoformat` round-trips are the identity in this model;
* user identifiers are `Nat` (the Python code keys its dicts by
  `str(user_id)`, and `str` is injective on ints);
* Python string operations `lower`, `strip`, `upper`, `' '.join` and the
  substring test `in` are modelled on Lean strings / character lists;
* file persistence (`save_stats` / `save_data`) writes the in-memory
  structure; the embedded state is that structure, so "persisted" and
  "in-memory" coincide here;
* a Python exception escaping a handler produces no reply; it is modelled
  as the handler returning no reply.

`PermissionLevel`, `check_permission` and the bot's configuration are
referenced by the source file but defined elsewhere in the repository;
they are modelled from the spec and marked as such.
-/

/-- Association-list lookup, modelling Python dict indexing / membership.
Keys are unique in states built by the embedded operations, and lookup
returns the value stored at the first occurrence of the key. -/
def alookup {κ α : Type} [DecidableEq κ] : List (κ × α) → κ → Option α
  | [], _ => none
  | (k, v) :: t, k₀ => if k = k₀ then some v else alookup t k₀

/-- Substring test on character lists, modelling Python `needle in hay`
for strings: true iff `needle` occurs contiguously inside `hay`. -/
def listContains (needle : List Char) : List Char → Bool
  | [] => needle.isPrefixOf []
  | c :: t => needle.isPrefixOf (c :: t) || listContains needle t

/-- Substring test on strings: Python `needle in hay`. -/
def strContains (hay needle : String) : Bool :=
  listContains needle.data hay.data

/-- Python `str.lower()`, character by character (the strings involved in
this development are ASCII, where the two coincide). -/
def strLower (s : String) : String :=
  ⟨s.data.map Char.toLower⟩

/-- Python `str.upper()`, character by character. -/
def strUpper (s : String) : String :=
  ⟨s.data.map Char.toUpper⟩

/-- Python `str.strip()`: drop leading and trailing whitespace. -/
def strTrim (s : String) : String :=
  ⟨((s.data.dropWhile Char.isWhitespace).reverse.dropWhile Char.isWhitespace).reverse⟩

/-- Modelled from the spec: the `PermissionLevel` enum is referenced by the
source file (`PermissionLevel[...]`, `PermissionLevel.ADMIN`) but defined in a
part of the repository that is not in `src/`.  Spec section 3: an ordered set
PUBLIC < MEMBER < ADMIN < OWNER. -/
inductive PermissionLevel where
  | PUBLIC
  | MEMBER
  | ADMIN
  | OWNER
deriving DecidableEq, Repr

/-- Modelled from the spec: the rank of each level (section 4.1: PUBLIC is
rank 0 and always satisfied, MEMBER=1, ADMIN=2, OWNER=3). -/
def PermissionLevel.rank : PermissionLevel → Nat
  | .PUBLIC => 0
  | .MEMBER => 1
  | .ADMIN => 2
  | .OWNER => 3

/-- Name of a level, modelling Python `Enum.name` (`permission_level.name`). -/
def levelName : PermissionLevel → String
  | .PUBLIC => "PUBLIC"
  | .MEMBER => "MEMBER"
  | .ADMIN => "ADMIN"
  | .OWNER => "OWNER"

/-- Modelled from the spec: Python `PermissionLevel[s]` looks an enum member up
by exact name and raises `KeyError` for any other string; the `Option` result
models that lookup (`none` = `KeyError`). -/
def parseLevel : String → Option PermissionLevel
  | "PUBLIC" => some .PUBLIC
  | "MEMBER" => some .MEMBER
  | "ADMIN" => some .ADMIN
  | "OWNER" => some .OWNER
  | _ => none

/-- Modelled from the spec: role resolution (section 4.1) returns the assigned
role, or MEMBER if unassigned; it never fails. -/
def resolveRole (roles : List (Nat × PermissionLevel)) (uid : Nat) : PermissionLevel :=
  (alookup roles uid).getD .MEMBER

/-- Modelled from the spec: `check_permission(userId, requiredLevel)` used by
the source file; true iff the rank of the user's resolved role is at least the
rank of the required level (section 4.1). -/
def check_permission (roles : List (Nat × PermissionLevel)) (uid : Nat)
    (required : PermissionLevel) : Bool :=
  required.rank ≤ (resolveRole roles uid).rank

/-- Per-user record stored in `stats['users']` by `record_message`. -/
structure UserInfo where
  username : String
  first_seen : Int
deriving DecidableEq, Repr

/-- The `MessageStats.stats` structure: `users` maps a user id to identity
data, `messages` maps a user id to its list of message timestamps
(`defaultdict(list)`). -/
structure Stats where
  users : List (Nat × UserInfo)
  messages : List (Nat × List Int)
deriving DecidableEq, Repr

/-- The empty default returned by `load_stats` when the stats file does not
exist: `{'users': {}, 'messages': defaultdict(list)}`. -/
def initStats : Stats :=
  { users := [], messages := [] }

/-- Appending a timestamp to `stats['messages'][str(uid)]`: a `defaultdict`
creates an empty list for a new key (the new key goes to the end, as dict
insertion order dictates) and then `append` adds the timestamp at the end. -/
def appendEvent : List (Nat × List Int) → Nat → Int → List (Nat × List Int)
  | [], uid, d => [(uid, [d])]
  | (k, v) :: t, uid, d =>
    if k = uid then (k, v ++ [d]) :: t else (k, v) :: appendEvent t uid d

/-- `MessageStats.record_message` (source lines 31-41): create the user record
with the given username and `first_seen = date` if the user id is not yet a
key of `users`, then append the timestamp to the user's message list and save. -/
def record_message (st : Stats) (user_id : Nat) (username : String) (date : Int) : Stats :=
  { users :=
      if (alookup st.users user_id).isSome then st.users
      else st.users ++ [(user_id, { username := username, first_seen := date })],
    messages := appendEvent st.messages user_id date }

/-- `MessageStats.get_user_stats` (source lines 43-61): unknown users yield 0;
`day`/`week`/`month` select a window start of now minus 1 day / 1 week /
30 days; any other period string returns the total message count; otherwise
the messages with timestamp strictly greater than the window start are
counted. -/
def get_user_stats (st : Stats) (now : Int) (user_id : Nat) (period : String) : Nat :=
  match alookup st.messages user_id with
  | none => 0
  | some messages =>
    let start_time : Option Int :=
      if period = "day" then some (now - 86400)
      else if period = "week" then some (now - 604800)
      else if period = "month" then some (now - 2592000)
      else none
    match start_time with
    | none => messages.length
    | some s => (messages.filter (fun t => decide (s < t))).length

/-- One leaderboard entry as built by `get_leaderboard`. -/
structure Row where
  user_id : Nat
  username : String
  count : Nat
deriving DecidableEq, Repr

/-- Username lookup `stats['users'][user_id]['username']` used by
`get_leaderboard`.  In Python an absent key raises `KeyError`; the invariant
proved below (claim C9) shows the key is always present in reachable states,
so the default is never consulted there. -/
def usernameOf (st : Stats) (uid : Nat) : String :=
  ((alookup st.users uid).map UserInfo.username).getD ""

/-- The unsorted row list `stats` built by `get_leaderboard` (source lines
64-72): one row per key of `messages`, in dict iteration order, whose count
is `get_user_stats` for that user. -/
def leaderboardRows (st : Stats) (now : Int) (period : String) : List Row :=
  st.messages.map fun p =>
    { user_id := p.1, username := usernameOf st p.1, count := get_user_stats st now p.1 period }

/-- Stable descending insertion: the new element goes in front of the first
element whose count is not larger, hence behind every earlier element of equal
count. -/
def insertDesc (x : Row) : List Row → List Row
  | [] => [x]
  | y :: ys => if y.count ≤ x.count then x :: y :: ys else y :: insertDesc x ys

/-- Python `list.sort(key=..., reverse=True)` is a stable descending sort; a
stable sort's output is determined by its input, so it is modelled by stable
insertion sort. -/
def sortDesc : List Row → List Row
  | [] => []
  | x :: xs => insertDesc x (sortDesc xs)

/-- `MessageStats.get_leaderboard` (source lines 63-76): build one row per
user appearing in `messages`, sort descending by count (stable), and keep the
first `limit` rows. -/
def get_leaderboard (st : Stats) (now : Int) (period : String) (limit : Nat) : List Row :=
  (sortDesc (leaderboardRows st now period)).take limit

/-- `get_leaderboard` with Python's default argument `limit=10`. -/
def get_leaderboard_default (st : Stats) (now : Int) (period : String) : List Row :=
  get_leaderboard st now period 10

/-- A keyword-table entry: the value of `self.keywords[keyword]`.  The
permission level is stored as a string (the enum member name), exactly as the
JSON-backed Python dict stores it; `updated_by`/`updated_at` are the audit
fields written by `edit_keyword`, absent until the first edit. -/
structure KeywordData where
  response : String
  permission_level : String
  updated_by : Option Nat := none
  updated_at : Option Int := none
deriving DecidableEq, Repr

/-- Replace the entry stored under `kw` (Python `self.keywords[keyword].update`):
the key keeps its position, only the value changes. -/
def updateEntry (kws : List (String × KeywordData)) (kw : String)
    (response : String) (level : String) (uid : Nat) (date : Int) :
    List (String × KeywordData) :=
  kws.map fun p =>
    if p.1 = kw then
      (p.1, { response := response, permission_level := level,
              updated_by := some uid, updated_at := some date })
    else p

/-- Outcome of `edit_keyword`, one case per reply branch of the source. -/
inductive EditOutcome where
  | denied
  | usage
  | notFound
  | invalidLevel
  | success
deriving DecidableEq, Repr

/-- `KeywordBot.edit_keyword` (source lines 83-123): check the caller's ADMIN
permission, then the argument count, then that the keyword exists, then parse
`args[1].upper()` as a level name; only when everything passes is the entry
replaced (and saved).  Every failing branch replies and returns with the
table untouched. -/
def edit_keyword (roles : List (Nat × PermissionLevel))
    (kws : List (String × KeywordData)) (uid : Nat) (args : List String)
    (date : Int) : List (String × KeywordData) × EditOutcome :=
  if check_permission roles uid .ADMIN = false then (kws, .denied)
  else
    match args with
    | kw :: lvl :: r₀ :: rest =>
      if (alookup kws kw).isNone then (kws, .notFound)
      else
        match parseLevel (strUpper lvl) with
        | none => (kws, .invalidLevel)
        | some permission_level =>
          (updateEntry kws kw (String.intercalate " " (r₀ :: rest))
            (levelName permission_level) uid date, .success)
    | _ => (kws, .usage)

/-- The `match` operation of spec section 4.2, as realised by the scan of
source lines 189-190: the first keyword (in table iteration order) whose
lower-cased form occurs in the lower-cased message text, with its entry. -/
def kwMatch (kws : List (String × KeywordData)) (messageText : String) :
    Option (String × KeywordData) :=
  kws.find? fun p => strContains (strLower messageText) (strLower p.1)

/-- An inbound message as seen by `message_handler`: chat id, sender id,
optional username, first name, text and date. -/
structure Msg where
  chat_id : Int
  user_id : Nat
  username : Option String
  first_name : String
  text : String
  date : Int
deriving DecidableEq, Repr

/-- Python `user.username or user.first_name`: `None` and the empty string
are falsy, so both fall back to the first name. -/
def effName (m : Msg) : String :=
  match m.username with
  | some u => if u = "" then m.first_name else u
  | none => m.first_name

/-- The bot state used by `message_handler`: the configured channel
allow-list, the keyword table, the role table (consumed by the spec-modelled
`check_permission`) and the message statistics. -/
structure BotState where
  allowed_group_ids : List Int
  keywords : List (String × KeywordData)
  roles : List (Nat × PermissionLevel)
  stats : Stats
deriving DecidableEq, Repr

/-- The keyword loop of `message_handler` (source lines 189-195), run on the
already stripped and lower-cased text: at the first keyword whose lower-cased
form occurs in the text, `PermissionLevel[data['permission_level']]` is
evaluated — an unparseable stored level raises `KeyError`, aborting the
handler with no reply (`none`); a permitted match replies with the entry's
response and returns; a denied match falls through to the next keyword. -/
def scanReply (roles : List (Nat × PermissionLevel)) (uid : Nat) :
    List (String × KeywordData) → String → Option String
  | [], _ => none
  | (kw, data) :: rest, text =>
    if strContains text (strLower kw) then
      match parseLevel data.permission_level with
      | none => none
      | some required_level =>
        if check_permission roles uid required_level then some data.response
        else scanReply roles uid rest text
    else scanReply roles uid rest text

/-- `KeywordBot.message_handler` (source lines 175-195): a message whose chat
id is not in `allowed_group_ids` is dropped; otherwise the message is
recorded in the statistics and the keyword scan may produce one reply. -/
def message_handler (bot : BotState) (msg : Msg) : BotState × Option String :=
  if msg.chat_id ∈ bot.allowed_group_ids then
    let stats₁ := record_message bot.stats msg.user_id (effName msg) msg.date
    let text := strLower (strTrim msg.text)
    ({ bot with stats := stats₁ }, scanReply bot.roles msg.user_id bot.keywords text)
  else (bot, none)

/-- Replay a list of `(user_id, username, date)` records through
`record_message`, modelling a sequence of handled messages. -/
def runTrace (st : Stats) : List (Nat × String × Int) → Stats
  | [] => st
  | (uid, name, d) :: t => runTrace (record_message st uid name d) t

/-- The event list stored for a user: `stats['messages'][uid]`, empty when
the user has no recorded events. -/
def events (st : Stats) (uid : Nat) : List Int :=
  (alookup st.messages uid).getD []

theorem alookup_append_last {κ α : Type} [DecidableEq κ]
    (l : List (κ × α)) (k : κ) (v : α) (h : alookup l k = none) :
    alookup (l ++ [(k, v)]) k = some v := by
  induction l with
  | nil => simp [alookup]
  | cons p t ih =>
    obtain ⟨k₁, v₁⟩ := p
    by_cases hk : k₁ = k
    · simp [alookup, hk] at h
    · simp only [alookup, List.cons_append, if_neg hk] at h ⊢
      exact ih h

theorem alookup_appendEvent_self (m : List (Nat × List Int)) (uid : Nat) (d : Int) :
    alookup (appendEvent m uid d) uid = some ((alookup m uid).getD [] ++ [d]) := by
  induction m with
  | nil => simp [appendEvent, alookup]
  | cons p t ih =>
    obtain ⟨k, v⟩ := p
    by_cases hk : k = uid
    · subst hk
      simp [appendEvent, alookup]
    · simp [appendEvent, alookup, hk, ih]

theorem alookup_appendEvent_ne (m : List (Nat × List Int)) (uid k : Nat) (d : Int)
    (hne : k ≠ uid) :
    alookup (appendEvent m uid d) k = alookup m k := by
  have hne' : uid ≠ k := fun h => hne h.symm
  induction m with
  | nil => simp [appendEvent, alookup, hne']
  | cons p t ih =>
    obtain ⟨k₁, v⟩ := p
    by_cases hk : k₁ = uid
    · subst hk
      simp [appendEvent, alookup, hne']
    · by_cases hk₂ : k₁ = k
      · simp [appendEvent, alookup, hk, hk₂, hne]
      · simp [appendEvent, alookup, hk, hk₂, hne, ih]

theorem events_record_self (st : Stats) (uid : Nat) (name : String) (d : Int) :
    events (record_message st uid name d) uid = events st uid ++ [d] := by
  simp [events, record_message, alookup_appendEvent_self]

theorem events_record_ne (st : Stats) (uid k : Nat) (name : String) (d : Int)
    (h : k ≠ uid) :
    events (record_message st uid name d) k = events st k := by
  simp [events, record_message, alookup_appendEvent_ne _ _ _ _ h]

/-- C2: `get_user_stats` counts exactly the user's events with timestamp
strictly greater than now − 24h for "day", now − 7d for "week", now − 30d for
"month"; any other period string yields the user's total event count; an
unknown user yields 0; and a user with events at now − 30h and now − 2h gets
1 for "day" and 2 for "bogus". -/
theorem getUserStats_spec : ∀ (st : Stats) (now : Int) (uid : Nat),
    (alookup st.messages uid = none → ∀ period, get_user_stats st now uid period = 0) ∧
    (∀ msgs, alookup st.messages uid = some msgs →
      get_user_stats st now uid "day"
          = (msgs.filter fun t => decide (now - 24 * 3600 < t)).length ∧
      get_user_stats st now uid "week"
          = (msgs.filter fun t => decide (now - 7 * 24 * 3600 < t)).length ∧
      get_user_stats st now uid "month"
          = (msgs.filter fun t => decide (now - 30 * 24 * 3600 < t)).length ∧
      (∀ period, period ≠ "day" → period ≠ "week" → period ≠ "month" →
        get_user_stats st now uid period = msgs.length)) ∧
    (get_user_stats { users := [(7, { username := "u", first_seen := -108000 })],
                      messages := [(7, [-108000, -7200])] } 0 7 "day" = 1 ∧
     get_user_stats { users := [(7, { username := "u", first_seen := -108000 })],
                      messages := [(7, [-108000, -7200])] } 0 7 "bogus" = 2) := by
  intro st now uid
  refine ⟨?_, ?_, by decide, by decide⟩
  · intro h period
    simp [get_user_stats, h]
  · intro msgs h
    have e₁ : now - 24 * 3600 = now - 86400 := by norm_num
    have e₂ : now - 7 * 24 * 3600 = now - 604800 := by norm_num
    have e₃ : now - 30 * 24 * 3600 = now - 2592000 := by norm_num
    refine ⟨?_, ?_, ?_, ?_⟩
    · simp [get_user_stats, h, e₁]
    · simp [get_user_stats, h, e₂]
    · simp [get_user_stats, h, e₃]
    · intro period hd hw hm
      simp [get_user_stats, h, hd, hw, hm]

/-- C2 witness: the theorem applied at a concrete state, discharging the
hypotheses of its conditional conjuncts. -/
theorem getUserStats_spec_witness :
    get_user_stats { users := [], messages := [] } 5 3 "week" = 0 ∧
    get_user_stats { users := [], messages := [(3, [4])] } 5 3 "total" = 1 := by
  constructor
  · exact (getUserStats_spec { users := [], messages := [] } 5 3).1 (by decide) "week"
  · exact (((getUserStats_spec { users := [], messages := [(3, [4])] } 5 3).2.1
      [4] (by decide)).2.2.2 "total" (by decide) (by decide) (by decide)).trans (by decide)

/-- C6: a message whose chat id is not in the configured allow-list is
ignored silently: the handler emits no reply and leaves the whole bot state —
in particular the statistics — unchanged. -/
theorem handler_drops_disallowed : ∀ (bot : BotState) (msg : Msg),
    msg.chat_id ∉ bot.allowed_group_ids → message_handler bot msg = (bot, none) := by
  intro bot msg h
  simp [message_handler, h]

/-- C6 witness: a concrete disallowed message is dropped. -/
theorem handler_drops_disallowed_witness :
    message_handler
      { allowed_group_ids := [1], keywords := [("hi", { response := "r", permission_level := "PUBLIC" })],
        roles := [], stats := initStats }
      { chat_id := 2, user_id := 7, username := some "alice", first_name := "A",
        text := "hi", date := 0 }
      = ({ allowed_group_ids := [1],
           keywords := [("hi", { response := "r", permission_level := "PUBLIC" })],
           roles := [], stats := initStats }, none) :=
  handler_drops_disallowed _ _ (by decide)

/-- C10: `record_message` writes a user's `username` and `first_seen` only on
the first observed message (creating the record with the supplied name and
timestamp); every later call for the same user id leaves the whole `users`
table unchanged, even when a different display name is supplied. -/
theorem recordMessage_username_frozen : ∀ (st : Stats) (uid : Nat) (name : String) (d : Int),
    (alookup st.users uid = none →
      alookup (record_message st uid name d).users uid
        = some { username := name, first_seen := d }) ∧
    (∀ u, alookup st.users uid = some u →
      (record_message st uid name d).users = st.users) := by
  intro st uid name d
  constructor
  · intro h
    have hs : (alookup st.users uid).isSome = false := by simp [h]
    simp only [record_message, hs, Bool.false_eq_true, if_false]
    exact alookup_append_last _ _ _ h
  · intro u h
    simp [record_message, h]

/-- C10 witness: first call creates the record, a second call with a
different display name changes nothing. -/
theorem recordMessage_username_frozen_witness :
    alookup (record_message initStats 7 "alice" 5).users 7
        = some { username := "alice", first_seen := 5 } ∧
    (record_message (record_message initStats 7 "alice" 5) 7 "bob" 9).users
        = (record_message initStats 7 "alice" 5).users := by
  constructor
  · exact (recordMessage_username_frozen initStats 7 "alice" 5).1 (by decide)
  · exact (recordMessage_username_frozen (record_message initStats 7 "alice" 5) 7 "bob" 9).2
      { username := "alice", first_seen := 5 } (by decide)

/-- C5: for every message in an allowed channel the statistics are updated by
`record_message` — independently of the keyword table, the roles and the
matching outcome — appending the message timestamp to the sender's event list
and creating the user record with `first_seen` equal to the message timestamp
when the sender is new. -/
theorem handler_always_records : ∀ (bot : BotState) (msg : Msg),
    msg.chat_id ∈ bot.allowed_group_ids →
    ((message_handler bot msg).1.stats
        = record_message bot.stats msg.user_id (effName msg) msg.date) ∧
    (∀ kws roles₂,
      (message_handler { bot with keywords := kws, roles := roles₂ } msg).1.stats
        = record_message bot.stats msg.user_id (effName msg) msg.date) ∧
    (events (message_handler bot msg).1.stats msg.user_id
        = events bot.stats msg.user_id ++ [msg.date]) ∧
    (alookup bot.stats.users msg.user_id = none →
      alookup (message_handler bot msg).1.stats.users msg.user_id
        = some { username := effName msg, first_seen := msg.date }) := by
  intro bot msg h
  refine ⟨by simp [message_handler, h], ?_, ?_, ?_⟩
  · intro kws roles₂
    simp [message_handler, h]
  · simp [message_handler, h, events_record_self]
  · intro h₀
    have hs : (alookup bot.stats.users msg.user_id).isSome = false := by simp [h₀]
    simp only [message_handler, if_pos h, record_message, hs, Bool.false_eq_true, if_false]
    exact alookup_append_last _ _ _ h₀

/-- C5 witness: a concrete allowed message is recorded even though no keyword
matches; the new user record carries the message timestamp. -/
theorem handler_always_records_witness :
    (message_handler
      { allowed_group_ids := [1], keywords := [], roles := [], stats := initStats }
      { chat_id := 1, user_id := 7, username := some "alice", first_name := "A",
        text := "hello", date := 3 }).1.stats
      = record_message initStats 7 "alice" 3 ∧
    alookup (message_handler
      { allowed_group_ids := [1], keywords := [], roles := [], stats := initStats }
      { chat_id := 1, user_id := 7, username := some "alice", first_name := "A",
        text := "hello", date := 3 }).1.stats.users 7
      = some { username := "alice", first_seen := 3 } := by
  have h := handler_always_records
    { allowed_group_ids := [1], keywords := [], roles := [], stats := initStats }
    { chat_id := 1, user_id := 7, username := some "alice", first_name := "A",
      text := "hello", date := 3 } (by decide)
  exact ⟨h.1, h.2.2.2 (by decide)⟩

/-- C7: for an authorized caller with well-formed arguments, `edit_keyword` on
an absent keyword reports `notFound` and leaves the table unchanged (so the
keyword is not created), and `edit_keyword` with a level string that does not
name one of the four enumerated levels (after upper-casing) reports
`invalidLevel` and leaves the table unchanged; in both error cases the
returned — hence persisted — table is exactly the old one. -/
theorem editKeyword_errors : ∀ (roles : List (Nat × PermissionLevel))
    (kws : List (String × KeywordData)) (uid : Nat) (kw lvl r₀ : String)
    (rest : List String) (date : Int),
    check_permission roles uid .ADMIN = true →
    ((alookup kws kw = none →
      edit_keyword roles kws uid (kw :: lvl :: r₀ :: rest) date = (kws, .notFound)) ∧
     (∀ e, alookup kws kw = some e → parseLevel (strUpper lvl) = none →
      edit_keyword roles kws uid (kw :: lvl :: r₀ :: rest) date = (kws, .invalidLevel))) := by
  intro roles kws uid kw lvl r₀ rest date h
  constructor
  · intro hn
    simp [edit_keyword, h, hn]
  · intro e he hp
    simp [edit_keyword, h, he, hp]

/-- C7 witness: a concrete admin caller editing a missing keyword gets
`notFound`, and editing an existing keyword with the level string "banana"
gets `invalidLevel`; the table is returned unchanged both times. -/
theorem editKeyword_errors_witness :
    edit_keyword [(1, .ADMIN)] [("hi", { response := "r", permission_level := "PUBLIC" })]
        1 ["nope", "ADMIN", "x"] 0
      = ([("hi", { response := "r", permission_level := "PUBLIC" })], .notFound) ∧
    edit_keyword [(1, .ADMIN)] [("hi", { response := "r", permission_level := "PUBLIC" })]
        1 ["hi", "banana", "x"] 0
      = ([("hi", { response := "r", permission_level := "PUBLIC" })], .invalidLevel) := by
  constructor
  · exact (editKeyword_errors [(1, .ADMIN)]
      [("hi", { response := "r", permission_level := "PUBLIC" })]
      1 "nope" "ADMIN" "x" [] 0 (by decide)).1 (by decide)
  · exact (editKeyword_errors [(1, .ADMIN)]
      [("hi", { response := "r", permission_level := "PUBLIC" })]
      1 "hi" "banana" "x" [] 0 (by decide)).2
      { response := "r", permission_level := "PUBLIC" } (by decide) (by decide)

theorem alookup_append_of_some {κ α : Type} [DecidableEq κ]
    (l₁ l₂ : List (κ × α)) (k : κ) (v : α) (h : alookup l₁ k = some v) :
    alookup (l₁ ++ l₂) k = some v := by
  induction l₁ with
  | nil => simp [alookup] at h
  | cons p t ih =>
    obtain ⟨k₁, v₁⟩ := p
    by_cases hk : k₁ = k
    · simp_all [alookup]
    · simp only [alookup, List.cons_append, if_neg hk] at h ⊢
      exact ih h

theorem isSome_alookup_appendEvent (m : List (Nat × List Int)) (uid k : Nat) (d : Int) :
    (alookup (appendEvent m uid d) k).isSome
      ↔ k = uid ∨ (alookup m k).isSome := by
  by_cases hk : k = uid
  · subst hk
    simp [alookup_appendEvent_self]
  · simp [alookup_appendEvent_ne _ _ _ _ hk, hk]

theorem runTrace_users_aux : ∀ (tr : List (Nat × String × Int)) (st : Stats),
    (∀ uid, (alookup st.messages uid).isSome → (alookup st.users uid).isSome) →
    ∀ uid, (alookup (runTrace st tr).messages uid).isSome →
      (alookup (runTrace st tr).users uid).isSome := by
  intro tr
  induction tr with
  | nil => intro st h; exact h
  | cons a t ih =>
    obtain ⟨u, n, d⟩ := a
    intro st h
    apply ih
    intro k hk
    rw [show (record_message st u n d).messages = appendEvent st.messages u d from rfl]
      at hk
    have hk' := (isSome_alookup_appendEvent st.messages u k d).mp hk
    show (alookup (record_message st u n d).users k).isSome
    by_cases hpres : (alookup st.users u).isSome
    · have : (record_message st u n d).users = st.users := by
        simp [record_message, hpres]
      rw [this]
      rcases hk' with hke | hkm
      · subst hke; exact hpres
      · exact h k hkm
    · have hnone : alookup st.users u = none := by
        cases hv : alookup st.users u with
        | none => rfl
        | some v => rw [hv] at hpres; simp at hpres
      have husers : (record_message st u n d).users
          = st.users ++ [(u, { username := n, first_seen := d })] := by
        simp [record_message, hpres]
      rw [husers]
      rcases hk' with hke | hkm
      · subst hke
        rw [alookup_append_last _ _ _ hnone]
        rfl
      · have := h k hkm
        cases hv : alookup st.users k with
        | none => rw [hv] at this; simp at this
        | some v => rw [alookup_append_of_some _ _ _ _ hv]; rfl

/-- C9: in every stats state reachable from the empty default state via
`record_message`, every user id that is a key of the `messages` map is also a
key of the `users` map, so the username lookup performed by `get_leaderboard`
succeeds for every user it ranks. -/
theorem reachable_messages_users : ∀ (tr : List (Nat × String × Int)) (uid : Nat),
    (alookup (runTrace initStats tr).messages uid).isSome →
    (alookup (runTrace initStats tr).users uid).isSome := by
  intro tr uid
  exact runTrace_users_aux tr initStats
    (fun u h => by simp [initStats, alookup] at h) uid

/-- C9 witness: after one recorded message the sender is a key of `messages`,
and the theorem yields its `users` record. -/
theorem reachable_messages_users_witness :
    (alookup (runTrace initStats [(7, "alice", 2)]).users 7).isSome :=
  reachable_messages_users [(7, "alice", 2)] 7 (by decide)

theorem chain'_append_le : ∀ (l : List Int) (d : Int),
    List.Chain' (fun a b => a ≤ b) l → (∀ x ∈ l, x ≤ d) →
    List.Chain' (fun a b => a ≤ b) (l ++ [d]) := by
  intro l d
  induction l with
  | nil => intro _ _; simp
  | cons a t ih =>
    intro hs hb
    cases t with
    | nil =>
      exact List.chain'_pair.mpr (hb a (by simp))
    | cons b t₂ =>
      rw [List.chain'_cons] at hs
      rw [List.cons_append, List.cons_append, List.chain'_cons]
      exact ⟨hs.1, ih hs.2 fun x hx => hb x (List.mem_cons_of_mem _ hx)⟩

theorem runTrace_sorted_aux : ∀ (tr : List (Nat × String × Int)) (st : Stats),
    List.Pairwise (fun a b => a.2.2 ≤ b.2.2) tr →
    (∀ uid, List.Chain' (fun a b => a ≤ b) (events st uid)) →
    (∀ uid x, x ∈ events st uid → ∀ e ∈ tr, x ≤ e.2.2) →
    ∀ uid, List.Chain' (fun a b => a ≤ b) (events (runTrace st tr) uid) := by
  intro tr
  induction tr with
  | nil => intro st _ hs _ uid; exact hs uid
  | cons a t ih =>
    obtain ⟨u, n, d⟩ := a
    intro st hp hs hb
    rw [List.pairwise_cons] at hp
    apply ih (record_message st u n d) hp.2
    · intro uid
      by_cases hu : uid = u
      · rw [hu, events_record_self]
        exact chain'_append_le _ _ (hs u) fun x hx => hb u x hx (u, n, d) (by simp)
      · rw [events_record_ne _ _ _ _ _ hu]
        exact hs uid
    · intro uid x hx e he
      by_cases hu : uid = u
      · rw [hu, events_record_self] at hx
        rcases List.mem_append.mp hx with hxl | hxr
        · exact hb u x hxl e (List.mem_cons_of_mem _ he)
        · have hxd : x = d := by simpa using hxr
          rw [hxd]
          exact hp.1 e he
      · rw [events_record_ne _ _ _ _ _ hu] at hx
        exact hb uid x hx e (List.mem_cons_of_mem _ he)

/-- C8 counterexample: the claim quantifies over all states reachable by a
sequence of `record_message` operations, but `record_message` appends
whatever timestamp it is given; recording timestamps 10 then 5 for one user
leaves that user's stored list `[10, 5]`, which is not non-decreasing. -/
theorem eventsSorted_cex :
    ¬ List.Chain' (fun a b => a ≤ b)
        (events (runTrace initStats [(7, "a", 10), (7, "a", 5)]) 7) := by
  have h : events (runTrace initStats [(7, "a", 10), (7, "a", 5)]) 7 = [10, 5] := by
    decide
  rw [h, List.chain'_pair]
  decide

/-- C8 (amended): in every stats state reachable from the empty default state
by a sequence of `record_message` operations whose timestamps are
non-decreasing in arrival order (messages recorded as they arrive,
chronologically), every user's stored list of event timestamps is
non-decreasing. -/
theorem eventsSorted_of_chronological : ∀ (tr : List (Nat × String × Int)),
    List.Chain' (fun a b => a.2.2 ≤ b.2.2) tr →
    ∀ uid, List.Chain' (fun a b => a ≤ b) (events (runTrace initStats tr) uid) := by
  intro tr htr uid
  have hp : List.Pairwise (fun a b => a.2.2 ≤ b.2.2) tr := by
    haveI : IsTrans (Nat × String × Int) (fun a b => a.2.2 ≤ b.2.2) :=
      ⟨fun a b c h₁ h₂ => le_trans h₁ h₂⟩
    exact List.chain'_iff_pairwise.mp htr
  refine runTrace_sorted_aux tr initStats hp (fun u => ?_) (fun u x hx => ?_) uid
  · simp [events, initStats, alookup]
  · simp [events, initStats, alookup] at hx

/-- C8 witness: a chronological two-message trace yields a sorted event
list. -/
theorem eventsSorted_of_chronological_witness :
    List.Chain' (fun a b => a ≤ b)
      (events (runTrace initStats [(7, "a", 1), (7, "a", 4)]) 7) :=
  eventsSorted_of_chronological [(7, "a", 1), (7, "a", 4)]
    (List.chain'_pair.mpr (by decide)) 7

theorem listContains_iff (needle : List Char) : ∀ (hay : List Char),
    listContains needle hay = true ↔ needle <:+: hay := by
  intro hay
  induction hay with
  | nil => simp [listContains]
  | cons c t ih => simp [listContains, List.infix_cons_iff, ih]

theorem strContains_iff (hay needle : String) :
    strContains hay needle = true ↔ needle.data <:+: hay.data :=
  listContains_iff needle.data hay.data

/-- C3: `kwMatch` returns the first keyword in table iteration order whose
lower-cased form is a substring of the lower-cased message text, together
with its entry, and no match exactly when no registered keyword's lower-cased
form is contained; with keywords "foo" then "foobar" inserted in that order
and message "say foobar now", the match is "foo", not "foobar". -/
theorem kwMatch_first : ∀ (kws : List (String × KeywordData)) (text : String),
    (kwMatch kws text = none ↔
      ∀ p ∈ kws, ¬ (strLower p.1).data <:+: (strLower text).data) ∧
    (∀ p, kwMatch kws text = some p →
      (strLower p.1).data <:+: (strLower text).data ∧
      ∃ pre suf, kws = pre ++ p :: suf ∧
        ∀ q ∈ pre, ¬ (strLower q.1).data <:+: (strLower text).data) ∧
    (∀ e₁ e₂ : KeywordData,
      kwMatch [("foo", e₁), ("foobar", e₂)] "say foobar now" = some ("foo", e₁)) := by
  intro kws text
  refine ⟨?_, ?_, ?_⟩
  · simp [kwMatch, strContains_iff]
  · intro p hp
    rw [kwMatch, List.find?_eq_some] at hp
    obtain ⟨hpb, pre, suf, heq, hpre⟩ := hp
    refine ⟨(strContains_iff _ _).mp hpb, pre, suf, heq, ?_⟩
    intro q hq
    have h := hpre q hq
    simp only [Bool.not_eq_eq_eq_not, Bool.not_true] at h
    rw [← strContains_iff]
    simp [h]
  · intro e₁ e₂
    have hp : strContains (strLower "say foobar now") (strLower "foo") = true := by
      decide
    simp [kwMatch, List.find?_cons, hp]

/-- C3 witness: the characterisation applied at a one-keyword table whose
keyword occurs in the message. -/
theorem kwMatch_first_witness :
    (strLower "Foo").data <:+: (strLower "say FOO now").data ∧
    ∃ pre suf,
      [("Foo", { response := "r", permission_level := "PUBLIC" : KeywordData })]
        = pre ++ ("Foo", { response := "r", permission_level := "PUBLIC" : KeywordData }) :: suf ∧
      ∀ q ∈ pre, ¬ (strLower q.1).data <:+: (strLower "say FOO now").data :=
  (kwMatch_first
    [("Foo", { response := "r", permission_level := "PUBLIC" })] "say FOO now").2.1
    ("Foo", { response := "r", permission_level := "PUBLIC" }) (by decide)

theorem scanReply_eq_find (roles : List (Nat × PermissionLevel)) (uid : Nat) :
    ∀ (kws : List (String × KeywordData)) (text : String),
    (∀ p ∈ kws, (parseLevel p.2.permission_level).isSome) →
    scanReply roles uid kws text
      = (kws.find? fun p =>
          strContains text (strLower p.1)
            && check_permission roles uid
                 ((parseLevel p.2.permission_level).getD .PUBLIC)).map
        fun p => p.2.response := by
  intro kws
  induction kws with
  | nil => intro text _; simp [scanReply]
  | cons p t ih =>
    obtain ⟨kw, data⟩ := p
    intro text hv
    have hd : (parseLevel data.permission_level).isSome :=
      hv (kw, data) (by simp)
    obtain ⟨lvl, hlvl⟩ := Option.isSome_iff_exists.mp hd
    have ht := ih text fun q hq => hv q (List.mem_cons_of_mem _ hq)
    by_cases hm : strContains text (strLower kw) = true
    · by_cases hcp : check_permission roles uid lvl = true
      · simp [scanReply, hm, hlvl, hcp, List.find?_cons]
      · simp [scanReply, hm, hlvl, hcp, List.find?_cons, ht]
    · simp [scanReply, hm, List.find?_cons, ht]

/-- C1 counterexample: with keywords "alpha" (requires ADMIN) then "beta"
(PUBLIC), both matching the message "alpha beta" of an unprivileged MEMBER
user, the claim says the handler emits no reply at all and never examines
"beta"; the code instead falls through past the denied first match and
replies with "beta"'s response. -/
theorem handler_denied_cex :
    (message_handler
      { allowed_group_ids := [1],
        keywords := [("alpha", { response := "A", permission_level := "ADMIN" }),
                     ("beta", { response := "B", permission_level := "PUBLIC" })],
        roles := [], stats := initStats }
      { chat_id := 1, user_id := 7, username := some "u", first_name := "U",
        text := "alpha beta", date := 0 }).2 = some "B" := by
  decide

/-- C1 (amended): a denied match does not stop the scan and produces no reply
by itself; the handler (for an allowed channel, with all stored levels
parseable) replies with the response of the first keyword in table order
that both occurs in the lower-cased stripped text and whose required level
the sender satisfies, and emits no reply exactly when no such permitted
matching keyword exists — so a denied match is skipped, not revealed. -/
theorem handler_reply_first_permitted : ∀ (bot : BotState) (msg : Msg),
    msg.chat_id ∈ bot.allowed_group_ids →
    (∀ p ∈ bot.keywords, (parseLevel p.2.permission_level).isSome) →
    (message_handler bot msg).2
      = (bot.keywords.find? fun p =>
          strContains (strLower (strTrim msg.text)) (strLower p.1)
            && check_permission bot.roles msg.user_id
                 ((parseLevel p.2.permission_level).getD .PUBLIC)).map
        fun p => p.2.response := by
  intro bot msg h hv
  have hs := scanReply_eq_find bot.roles msg.user_id bot.keywords
    (strLower (strTrim msg.text)) hv
  simp [message_handler, h, hs]

/-- C1 witness: the amended characterisation applied to a concrete ADMIN
user, whose first matching keyword is permitted and answered. -/
theorem handler_reply_first_permitted_witness :
    (message_handler
      { allowed_group_ids := [1],
        keywords := [("alpha", { response := "A", permission_level := "ADMIN" }),
                     ("beta", { response := "B", permission_level := "PUBLIC" })],
        roles := [(7, .ADMIN)], stats := initStats }
      { chat_id := 1, user_id := 7, username := some "u", first_name := "U",
        text := "alpha beta", date := 0 }).2 = some "A" := by
  have h := handler_reply_first_permitted
    { allowed_group_ids := [1],
      keywords := [("alpha", { response := "A", permission_level := "ADMIN" }),
                   ("beta", { response := "B", permission_level := "PUBLIC" })],
      roles := [(7, .ADMIN)], stats := initStats }
    { chat_id := 1, user_id := 7, username := some "u", first_name := "U",
      text := "alpha beta", date := 0 }
    (by decide) (by decide)
  exact h.trans (by decide)

theorem mem_insertDesc (x a : Row) : ∀ (l : List Row),
    a ∈ insertDesc x l ↔ a = x ∨ a ∈ l := by
  intro l
  induction l with
  | nil => simp [insertDesc]
  | cons y ys ih =>
    by_cases h : y.count ≤ x.count
    · simp [insertDesc, h]
    · simp [insertDesc, h, ih]
      tauto

theorem mem_sortDesc (a : Row) : ∀ (l : List Row), a ∈ sortDesc l ↔ a ∈ l := by
  intro l
  induction l with
  | nil => simp [sortDesc]
  | cons x xs ih => simp [sortDesc, mem_insertDesc, ih]

theorem chain'_insertDesc (x : Row) : ∀ (l : List Row),
    List.Chain' (fun a b => b.count ≤ a.count) l →
    List.Chain' (fun a b => b.count ≤ a.count) (insertDesc x l) := by
  intro l
  induction l with
  | nil => intro _; simp [insertDesc]
  | cons y ys ih =>
    intro hs
    by_cases h : y.count ≤ x.count
    · simp only [insertDesc, if_pos h]
      rw [List.chain'_cons]
      exact ⟨h, hs⟩
    · simp only [insertDesc, if_neg h]
      have hx : x.count ≤ y.count := le_of_not_le h
      cases ys with
      | nil => exact List.chain'_pair.mpr hx
      | cons z zs =>
        rw [List.chain'_cons] at hs
        have ih' := ih hs.2
        by_cases hz : z.count ≤ x.count
        · simp only [insertDesc, if_pos hz] at ih' ⊢
          rw [List.chain'_cons]
          exact ⟨hx, ih'⟩
        · simp only [insertDesc, if_neg hz] at ih' ⊢
          rw [List.chain'_cons]
          exact ⟨hs.1, ih'⟩

theorem chain'_sortDesc : ∀ (l : List Row),
    List.Chain' (fun a b => b.count ≤ a.count) (sortDesc l) := by
  intro l
  induction l with
  | nil => simp [sortDesc]
  | cons x xs ih => exact chain'_insertDesc x (sortDesc xs) ih

theorem sublist_insertDesc (x : Row) : ∀ (l : List Row), l.Sublist (insertDesc x l) := by
  intro l
  induction l with
  | nil => simp [insertDesc]
  | cons y ys ih =>
    by_cases h : y.count ≤ x.count
    · simp only [insertDesc, if_pos h]
      exact List.Sublist.cons x (List.Sublist.refl _)
    · simp only [insertDesc, if_neg h]
      exact List.Sublist.cons₂ y ih

theorem stable_insert (x b : Row) : ∀ (l : List Row),
    List.Chain' (fun a b => b.count ≤ a.count) l →
    b ∈ l → b.count ≤ x.count → [x, b].Sublist (insertDesc x l) := by
  intro l
  induction l with
  | nil => intro _ hb; simp at hb
  | cons y ys ih =>
    intro hs hb hbx
    by_cases h : y.count ≤ x.count
    · simp only [insertDesc, if_pos h]
      exact List.Sublist.cons₂ x (List.singleton_sublist.mpr hb)
    · simp only [insertDesc, if_neg h]
      have hxy : x.count < y.count := Nat.lt_of_not_le h
      rcases List.mem_cons.mp hb with hby | hbys
      · exfalso
        rw [hby] at hbx
        omega
      · exact List.Sublist.cons y
          (ih (List.chain'_cons'.mp hs).2 hbys hbx)

theorem sortDesc_stable : ∀ (l : List Row) (a b : Row),
    [a, b].Sublist l → b.count ≤ a.count → [a, b].Sublist (sortDesc l) := by
  intro l
  induction l with
  | nil =>
    intro a b h _
    simp at h
  | cons x xs ih =>
    intro a b h hba
    show [a, b].Sublist (insertDesc x (sortDesc xs))
    cases h with
    | cons _ h₂ =>
      exact (ih a b h₂ hba).trans (sublist_insertDesc x (sortDesc xs))
    | cons₂ _ h₂ =>
      have hb : b ∈ sortDesc xs := (mem_sortDesc b xs).mpr (List.singleton_sublist.mp h₂)
      exact stable_insert x b (sortDesc xs) (chain'_sortDesc xs) hb hba

theorem chain'_take {α : Type} {R : α → α → Prop} : ∀ (n : Nat) (l : List α),
    List.Chain' R l → List.Chain' R (l.take n) := by
  intro n
  induction n with
  | zero => intro l _; simp
  | succ m ih =>
    intro l h
    cases l with
    | nil => simp
    | cons x xs =>
      rw [List.take_succ_cons]
      rw [List.chain'_cons'] at h ⊢
      refine ⟨?_, ih xs h.2⟩
      intro z hz
      apply h.1
      cases xs with
      | nil => simp at hz
      | cons y ys =>
        cases m with
        | zero => simp at hz
        | succ k =>
          rw [List.take_succ_cons] at hz
          simp at hz ⊢
          exact hz

/-- C4: `get_leaderboard` truncates to `limit` (and defaults to 10), its
output is sorted descending by count, every reported count is the user's
`get_user_stats` value, ties keep the `messages` iteration order (stability
of the sort), and — being a function of the state and "now" — it is
deterministic; the three-user example A(5), B(5), C(3) with limit 2 yields
exactly [A, B]. -/
theorem getLeaderboard_spec : ∀ (st : Stats) (now : Int) (period : String) (limit : Nat),
    ((get_leaderboard st now period limit).length ≤ limit) ∧
    List.Chain' (fun a b => b.count ≤ a.count) (get_leaderboard st now period limit) ∧
    (∀ r ∈ get_leaderboard st now period limit,
      r.count = get_user_stats st now r.user_id period) ∧
    (∀ a b, [a, b].Sublist (leaderboardRows st now period) → b.count ≤ a.count →
      [a, b].Sublist (sortDesc (leaderboardRows st now period))) ∧
    (get_leaderboard_default st now period = get_leaderboard st now period 10) ∧
    (get_leaderboard
        { users := [(1, { username := "A", first_seen := 0 }),
                    (2, { username := "B", first_seen := 0 }),
                    (3, { username := "C", first_seen := 0 })],
          messages := [(1, [1, 2, 3, 4, 5]), (2, [1, 2, 3, 4, 5]), (3, [1, 2, 3])] }
        0 "bogus" 2
      = [{ user_id := 1, username := "A", count := 5 },
         { user_id := 2, username := "B", count := 5 }]) := by
  intro st now period limit
  refine ⟨List.length_take_le _ _, ?_, ?_, sortDesc_stable _, rfl, by decide⟩
  · exact chain'_take limit _ (chain'_sortDesc (leaderboardRows st now period))
  · intro r hr
    have hr₁ : r ∈ sortDesc (leaderboardRows st now period) :=
      List.mem_of_mem_take hr
    have hr₂ : r ∈ leaderboardRows st now period :=
      (mem_sortDesc r _).mp hr₁
    obtain ⟨p, _, hp⟩ := List.mem_map.mp hr₂
    rw [← hp]

/-- C4 witness: the count conjunct and the stability conjunct applied at a
concrete two-user state with tied counts. -/
theorem getLeaderboard_spec_witness :
    ({ user_id := 4, username := "D", count := 1 : Row}.count
      = get_user_stats { users := [(4, { username := "D", first_seen := 0 })],
                         messages := [(4, [2])] } 9 4 "all") ∧
    [{ user_id := 4, username := "D", count := 1 : Row },
     { user_id := 5, username := "E", count := 1 : Row }].Sublist
      (sortDesc (leaderboardRows
        { users := [(4, { username := "D", first_seen := 0 }),
                    (5, { username := "E", first_seen := 0 })],
          messages := [(4, [2]), (5, [3])] } 9 "all")) := by
  constructor
  · exact (getLeaderboard_spec
      { users := [(4, { username := "D", first_seen := 0 })],
        messages := [(4, [2])] } 9 "all" 10).2.2.1
      { user_id := 4, username := "D", count := 1 } (by decide)
  · exact (getLeaderboard_spec
      { users := [(4, { username := "D", first_seen := 0 }),
                  (5, { username := "E", first_seen := 0 })],
        messages := [(4, [2]), (5, [3])] } 9 "all" 10).2.2.2.1
      { user_id := 4, username := "D", count := 1 }
      { user_id := 5, username := "E", count := 1 }
      (by decide) (by decide)
